import Mathlib

/-!
Verification development for the people-notes plugin.

Strings are modelled as `List Char`; JavaScript numbers that carry match
scores are modelled as `ℚ`; the host's document store and UI are modelled
by explicit parameters (the active document as an `Option`, storage
outcomes as boolean oracles) and by returning the list of issued writes.
Case mapping (`toLowerCase`/`toUpperCase`) is modelled at the ASCII level
via `Char.toLower`/`Char.toUpper`.
-/

namespace PeopleNotes

/-- The ECMAScript whitespace set used by `String.prototype.trim`,
`\s` in regular expressions and `split(/\s+/)` (space, tab, line
terminators, NBSP, the Unicode space separators and the BOM). -/
def jsWs (c : Char) : Bool :=
  c == ' ' || c == '\t' || c == '\n' || c == '\r' || c == '\x0b' || c == '\x0c' ||
  c.toNat == 0xA0 || c.toNat == 0x1680 ||
  (0x2000 ≤ c.toNat && c.toNat ≤ 0x200A) ||
  c.toNat == 0x2028 || c.toNat == 0x2029 || c.toNat == 0x202F ||
  c.toNat == 0x205F || c.toNat == 0x3000 || c.toNat == 0xFEFF

/-- JavaScript `String.prototype.trim`: drop whitespace from both ends. -/
def jsTrim (l : List Char) : List Char :=
  (l.dropWhile jsWs).rdropWhile jsWs

/-- The forbidden filesystem characters of `DirectoryManagerImpl.normalizePersonName`:
the regex class matching slash, backslash, colon, star, question mark,
double quote, angle brackets and pipe. -/
def forbiddenChar (c : Char) : Bool :=
  c == '/' || c == '\\' || c == ':' || c == '*' || c == '?' || c == '"' ||
  c == '<' || c == '>' || c == '|'

/-- The global replace of each forbidden character with a hyphen. -/
def replaceForbidden (l : List Char) : List Char :=
  l.map (fun c => if forbiddenChar c then '-' else c)

/-- Worker for `collapseWs`: the flag records whether the previously consumed
character was whitespace (in which case further whitespace of the same run is
dropped). -/
def collapseWsGo : Bool → List Char → List Char
  | _, [] => []
  | prevWs, c :: cs =>
    if jsWs c then
      if prevWs then collapseWsGo true cs else ' ' :: collapseWsGo true cs
    else c :: collapseWsGo false cs

/-- JavaScript global replace of every maximal whitespace run by a single
space. -/
def collapseWs (l : List Char) : List Char :=
  collapseWsGo false l

def isHyphen (c : Char) : Bool := c == '-'

/-- JavaScript global replace of the leading hyphen run and the trailing
hyphen run by nothing: remove the maximal leading and the maximal trailing
run of hyphens. -/
def stripEdgeHyphens (l : List Char) : List Char :=
  (l.dropWhile isHyphen).rdropWhile isHyphen

/-- `DirectoryManagerImpl.normalizePersonName` (src/src/DirectoryManager.ts,
lines 10-16): trim, replace forbidden filesystem characters with hyphens,
collapse whitespace runs to single spaces, strip leading/trailing hyphens. -/
def normalizePersonName (name : List Char) : List Char :=
  stripEdgeHyphens (collapseWs (replaceForbidden (jsTrim name)))

/-- Whitespace-normal form: every whitespace character is a plain space and
no two adjacent characters are both whitespace. -/
def WsNormal (l : List Char) : Prop :=
  (∀ c ∈ l, jsWs c = true → c = ' ') ∧
  l.Chain' (fun a b => jsWs a = false ∨ jsWs b = false)

/-! The fuzzy person-name match scorer (`FuzzySearchServiceImpl`,
src/unnamed/part_003). Scores are modelled as exact rationals. -/

/-- JavaScript `toLowerCase`, modelled at the ASCII level. -/
def lower (l : List Char) : List Char := l.map Char.toLower

mutual

/-- Worker for `wsSplit` while inside a non-separator segment; `acc` holds the
segment read so far, reversed. -/
def wsSplitGo (acc : List Char) : List Char → List (List Char)
  | [] => [acc.reverse]
  | c :: cs => if jsWs c then wsSplitSep acc cs else wsSplitGo (c :: acc) cs

/-- Worker for `wsSplit` while inside a whitespace separator run; emits the
pending segment when the run ends. -/
def wsSplitSep (acc : List Char) : List Char → List (List Char)
  | [] => [acc.reverse, []]
  | c :: cs => if jsWs c then wsSplitSep acc cs else acc.reverse :: wsSplitGo [c] cs

end

/-- JavaScript `split(/\s+/)`: each maximal whitespace run separates segments;
a leading or trailing run produces an empty segment at that end. -/
def wsSplit (l : List Char) : List (List Char) := wsSplitGo [] l

/-- JavaScript `charAt(0)` viewed as a (possibly empty) string. -/
def charAt0 : List Char → List Char
  | [] => []
  | c :: _ => [c]

/-- `FuzzySearchServiceImpl.extractInitials`: first character of each
whitespace-delimited word, concatenated and uppercased. -/
def extractInitials (name : List Char) : List Char :=
  (((wsSplit name).map charAt0).flatten).map Char.toUpper

/-- The matching loop of `calculateFuzzyScore`: walk the candidate's
characters and greedily consume query characters in order, counting matches. -/
def subseqMatches : List Char → List Char → Nat
  | [], _ => 0
  | _ :: _, [] => 0
  | c :: cs, d :: ds => if c = d then subseqMatches cs ds + 1 else subseqMatches cs (d :: ds)

/-- `FuzzySearchServiceImpl.calculateFuzzyScore`: ratio of query characters
matched in order, multiplied by the length-proportion penalty
`min 1 (queryLength / nameLength)`. -/
def calculateFuzzyScore (name query : List Char) : ℚ :=
  ((subseqMatches name query : ℚ) / (query.length : ℚ)) *
    min 1 ((query.length : ℚ) / (name.length : ℚ))

/-- The count of query words that have a containment relation (in either
direction) with some candidate word (the tier-9 word-overlap measure). -/
def matchingWordsCount (personName query : List Char) : Nat :=
  ((wsSplit (lower query)).filter
    (fun qw => (wsSplit (lower personName)).any
      (fun nw => decide (qw <:+: nw) || decide (nw <:+: qw)))).length

/-- `FuzzySearchServiceImpl.calculateMatchScore` (src/unnamed/part_003,
lines 52-113): the tiered scoring function. The second
case-insensitive-equality branch is kept exactly as in the source even
though the first lowercased comparison already subsumes it. -/
def calculateMatchScore (personName query : List Char) : ℚ :=
  if jsTrim query = [] then 0
  else if lower personName = lower query then 1
  else if lower personName = lower query then 19/20
  else if lower query <+: lower personName then 4/5
  else if (' ' :: lower query) <:+: lower personName ∨
          (lower query ++ [' ']) <:+: lower personName then 7/10
  else if lower query <:+: lower personName then 3/5
  else if lower (extractInitials personName) = lower query then 1/2
  else if 3/10 < calculateFuzzyScore (lower personName) (lower query) then
    calculateFuzzyScore (lower personName) (lower query)
  else if matchingWordsCount personName query = (wsSplit (lower query)).length then 2/5
  else if 0 < matchingWordsCount personName query then
    1/5 + ((matchingWordsCount personName query : ℚ) /
      ((wsSplit (lower query)).length : ℚ)) * (1/5)
  else 0

/-! The embedding service (`EmbeddingServiceImpl`, src/unnamed/part_003):
reference formatting, embedding into the active document, and per-person
table-of-contents maintenance. -/

inductive EmbeddingFormat
  | wikilink
  | markdownLink
deriving DecidableEq

inductive NoteEmbedType
  | link
  | embed
deriving DecidableEq

inductive TimestampFormat
  | isoWithSeconds
  | isoWithoutSeconds
deriving DecidableEq

/-- The calendar components a JavaScript `Date` exposes through its getters;
`month` is the 1-based month, i.e. the source's `getMonth() + 1`. -/
structure DateRec where
  year : Nat
  month : Nat
  day : Nat
  hour : Nat
  minute : Nat
  second : Nat
deriving DecidableEq

/-- Lexicographic key for `DateRec`; for calendar-valid components it orders
dates exactly as `Date.getTime()` does. -/
def dateKey (d : DateRec) : Nat :=
  ((((d.year * 13 + d.month) * 32 + d.day) * 25 + d.hour) * 61 + d.minute) * 61 + d.second

/-- The `NoteInfo` record of src/src/types.ts. -/
structure NoteInfo where
  personName : List Char
  fileName : List Char
  filePath : List Char
  timestamp : DateRec
deriving DecidableEq

/-- The settings consumed by the services (src/src/types.ts plus the
TOC-specific fields used by src/unnamed/part_003). -/
structure PeopleNotesSettings where
  peopleDirectoryPath : List Char
  tableOfContentsFileName : List Char
  embeddingFormat : EmbeddingFormat
  timestampFormat : TimestampFormat
  noteEmbedType : NoteEmbedType
  tocContentType : NoteEmbedType
deriving DecidableEq

/-- JavaScript `fileName.replace(/\.md$/, '')`: strip a trailing `.md`. -/
def stripMdSuffix (l : List Char) : List Char :=
  if ['.', 'm', 'd'] <:+ l then l.take (l.length - 3) else l

/-- JavaScript `filePath.replace(/ /g, '%20')`. -/
def percentEncodeSpaces (l : List Char) : List Char :=
  (l.map (fun c => if c = ' ' then ['%', '2', '0'] else [c])).flatten

/-- `EmbeddingServiceImpl.formatNoteLink`: wikilink or markdown link, with a
bang prefix only for wikilink embeds. The source's switch has a default case
identical to the wikilink case; with a two-valued format type it is
unreachable. -/
def formatNoteLink (note : NoteInfo) (format : EmbeddingFormat)
    (embedType : NoteEmbedType) : List Char :=
  let baseName := stripMdSuffix note.fileName
  let embedPrefix : List Char :=
    if embedType = NoteEmbedType.embed ∧ format = EmbeddingFormat.wikilink then ['!'] else []
  match format with
  | .wikilink => embedPrefix ++ '[' :: '[' :: (baseName ++ [']', ']'])
  | .markdownLink => '[' :: (baseName ++ ']' :: '(' :: (percentEncodeSpaces note.filePath ++ [')']))

/-- `EmbeddingServiceImpl.embedInCurrentNote`: given the currently active
document's body (or none), return whether the embed happened together with
the list of document writes issued. -/
def embedInCurrentNote (s : PeopleNotesSettings) (note : NoteInfo)
    (activeDoc : Option (List Char)) : Bool × List (List Char) :=
  match activeDoc with
  | none => (false, [])
  | some currentContent =>
      (true,
       [currentContent ++ '\n' :: '\n' ::
          formatNoteLink note s.embeddingFormat s.noteEmbedType])

/-- `EmbeddingServiceImpl.createInitialTocContent`: the fresh header block
for a person's table of contents. -/
def createInitialTocContent (personName : List Char) : List Char :=
  "# ".toList ++ personName ++ " Meeting Notes\n\nThis file tracks all notes for ".toList ++
    personName ++ ", automatically updated when new notes are created.\n\n---\n\n".toList

/-- The initial table-of-contents content viewed as its list of lines. -/
def tocHeaderLines (personName : List Char) : List (List Char) :=
  ["# ".toList ++ personName ++ " Meeting Notes".toList,
   [],
   "This file tracks all notes for ".toList ++ personName ++
     ", automatically updated when new notes are created.".toList,
   [],
   ['-', '-', '-'],
   [],
   []]

/-- The for-loop of `updatePersonTocWithNote` that looks for the first line
trimming to the divider. -/
def findDivider : List (List Char) → Option Nat
  | [] => none
  | l :: rest =>
    if jsTrim l = ['-', '-', '-'] then some 0
    else (findDivider rest).map (· + 1)

/-- The insertion index computed by `updatePersonTocWithNote`: one past the
first divider line, then past any blank lines, or the number of lines when
no divider exists. -/
def tocInsertIndex (lines : List (List Char)) : Nat :=
  match findDivider lines with
  | some i => i + 1 + ((lines.drop (i + 1)).takeWhile (fun l => decide (jsTrim l = []))).length
  | none => lines.length

/-- `EmbeddingServiceImpl.updatePersonTocWithNote` (src/unnamed/part_003,
lines 244-278): no-op when the reference already occurs anywhere in the
text, otherwise insert the entry line right after the divider (skipping
blank lines), or append at the end when there is no divider. -/
def updatePersonTocWithNote (s : PeopleNotesSettings) (tocContent : List Char)
    (note : NoteInfo) : List Char :=
  let noteLink := formatNoteLink note s.embeddingFormat s.tocContentType
  let noteEntry := '-' :: ' ' :: noteLink
  if noteLink <:+: tocContent then tocContent
  else
    let lines := tocContent.splitOn '\n'
    let insertIndex := tocInsertIndex lines
    ['\n'].intercalate (lines.take insertIndex ++ noteEntry :: lines.drop insertIndex)

/-- The content-rebuilding loop of
`EmbeddingServiceImpl.regenerateTableOfContents` (src/unnamed/part_003,
lines 302-309): fold the single-entry insertion over the person's notes,
starting from a fresh header. -/
def regenerateTocContent (s : PeopleNotesSettings) (personName : List Char)
    (notes : List NoteInfo) : List Char :=
  notes.foldl (fun content note => updatePersonTocWithNote s content note)
    (createInitialTocContent personName)

/-- A concrete settings record with the default wikilink/link configuration. -/
def wikilinkSettings : PeopleNotesSettings :=
  ⟨"People".toList, "{name} Meeting Notes.md".toList, .wikilink, .isoWithSeconds, .link, .link⟩

/-- A concrete note used by counterexamples and witnesses. -/
def noteX : NoteInfo :=
  ⟨"X".toList, "X.md".toList, "People/X/X.md".toList, ⟨2025, 9, 11, 10, 18, 48⟩⟩

/-- The older of the two John Doe notes from the spec's regeneration
scenario. -/
def noteJohn1 : NoteInfo :=
  ⟨"John Doe".toList, "John Doe 2025-09-11--10-18-48.md".toList,
   "People/John Doe/John Doe 2025-09-11--10-18-48.md".toList, ⟨2025, 9, 11, 10, 18, 48⟩⟩

/-- The newer of the two John Doe notes from the spec's regeneration
scenario. -/
def noteJohn2 : NoteInfo :=
  ⟨"John Doe".toList, "John Doe 2025-09-12--14-30-15.md".toList,
   "People/John Doe/John Doe 2025-09-12--14-30-15.md".toList, ⟨2025, 9, 12, 14, 30, 15⟩⟩

/-! The person records produced by the directory manager and by person
search (src/src/DirectoryManager.ts and src/unnamed/part_003). -/

/-- The `PersonInfo` record of src/src/types.ts. -/
structure PersonInfo where
  name : List Char
  normalizedName : List Char
  directoryPath : List Char
  notes : List NoteInfo
deriving DecidableEq

/-- The synthetic new-person candidate built by
`FuzzySearchServiceImpl.searchPeople` (src/unnamed/part_003, lines 31-45);
its directory path template hard-codes the People root. -/
def syntheticNewPerson (query : List Char) : PersonInfo :=
  { name := jsTrim query
    normalizedName := normalizePersonName (jsTrim query)
    directoryPath := "People/".toList ++ normalizePersonName (jsTrim query)
    notes := [] }

/-- The person path `DirectoryManagerImpl.ensurePersonDirectory` and
`getPersonInfo` derive: configured root, slash, normalized name. -/
def personDirectoryPath (peopleDirectoryPath personName : List Char) : List Char :=
  peopleDirectoryPath ++ '/' :: normalizePersonName personName

/-- The `PersonInfo` record `DirectoryManagerImpl.getPersonInfo` constructs
for an existing person directory holding the given notes. -/
def getPersonInfoRecord (peopleDirectoryPath personName : List Char)
    (notes : List NoteInfo) : PersonInfo :=
  { name := personName
    normalizedName := normalizePersonName personName
    directoryPath := personDirectoryPath peopleDirectoryPath personName
    notes := notes }

/-! The note-creation orchestrator (`PeopleNotesServiceImpl`,
src/src/PeopleNotesService.ts). -/

/-- JavaScript `String(n).padStart(2, '0')`. -/
def pad2 (n : Nat) : List Char :=
  if (Nat.toDigits 10 n).length < 2 then '0' :: Nat.toDigits 10 n else Nat.toDigits 10 n

/-- `PeopleNotesServiceImpl.formatTimestamp`: zero-padded components,
double hyphen between date and time, seconds omitted under the
without-seconds format. -/
def formatTimestamp (s : PeopleNotesSettings) (d : DateRec) : List Char :=
  if s.timestampFormat = TimestampFormat.isoWithoutSeconds then
    Nat.toDigits 10 d.year ++ '-' :: pad2 d.month ++ '-' :: pad2 d.day ++
      '-' :: '-' :: pad2 d.hour ++ '-' :: pad2 d.minute
  else
    Nat.toDigits 10 d.year ++ '-' :: pad2 d.month ++ '-' :: pad2 d.day ++
      '-' :: '-' :: pad2 d.hour ++ '-' :: pad2 d.minute ++ '-' :: pad2 d.second

/-- `PeopleNotesServiceImpl.generateFileName`: normalized name, space,
formatted timestamp, md extension. -/
def generateFileName (s : PeopleNotesSettings) (personName : List Char)
    (ts : DateRec) : List Char :=
  normalizePersonName personName ++ ' ' :: formatTimestamp s ts ++ ".md".toList

/-- The options record for note creation (src/src/types.ts). -/
structure CreateNoteOptions where
  personName : List Char
  timestamp : Option DateRec
  embedInCurrentNote : Option Bool
  updateTableOfContents : Option Bool
deriving DecidableEq

/-- The result record of note creation (src/src/types.ts). -/
structure CreateNoteResult where
  success : Bool
  note : Option NoteInfo
  error : Option (List Char)
  embedded : Bool
  tocUpdated : Bool
deriving DecidableEq

/-- The storage operations `createNote` issues, in order. -/
inductive StorageEffect
  | ensureDirectory (path : List Char)
  | createFile (path : List Char)
  | embedAttempt
  | tocAttempt
deriving DecidableEq

/-- Outcomes of the document store and embedding collaborators during one
`createNote` call: whether directory-ensure and file-create succeed (false
models a thrown storage error carrying the given message), and the booleans
the embedding service returns for the embed and TOC attempts. -/
structure CreateOracles where
  ensureDirOk : Bool
  createOk : Bool
  thrownMessage : List Char
  embedResult : Bool
  tocResult : Bool
deriving DecidableEq

/-- `PeopleNotesServiceImpl.createNote` (src/src/PeopleNotesService.ts,
lines 12-73): validate the trimmed name, ensure the person directory,
create the note file, then attempt embedding and the TOC update whenever
the corresponding flag is not explicitly false; storage throws are caught
into a failure result. Returns the result together with the list of
storage operations issued. -/
def createNote (s : PeopleNotesSettings) (now : DateRec) (orc : CreateOracles)
    (o : CreateNoteOptions) : CreateNoteResult × List StorageEffect :=
  if jsTrim o.personName = [] then
    ({ success := false, note := none,
       error := some "Person name cannot be empty".toList,
       embedded := false, tocUpdated := false }, [])
  else
    let ts := o.timestamp.getD now
    let fileName := generateFileName s o.personName ts
    let filePath := s.peopleDirectoryPath ++ '/' ::
      (normalizePersonName o.personName ++ '/' :: fileName)
    if orc.ensureDirOk = false then
      ({ success := false, note := none, error := some orc.thrownMessage,
         embedded := false, tocUpdated := false },
       [.ensureDirectory (personDirectoryPath s.peopleDirectoryPath o.personName)])
    else if orc.createOk = false then
      ({ success := false, note := none, error := some orc.thrownMessage,
         embedded := false, tocUpdated := false },
       [.ensureDirectory (personDirectoryPath s.peopleDirectoryPath o.personName),
        .createFile filePath])
    else
      ({ success := true,
         note := some { personName := o.personName, fileName := fileName,
                        filePath := filePath, timestamp := ts },
         error := none,
         embedded := if o.embedInCurrentNote ≠ some false then orc.embedResult else false,
         tocUpdated := if o.updateTableOfContents ≠ some false then orc.tocResult else false },
       [StorageEffect.ensureDirectory (personDirectoryPath s.peopleDirectoryPath o.personName),
        StorageEffect.createFile filePath] ++
       (if o.embedInCurrentNote ≠ some false then [StorageEffect.embedAttempt] else []) ++
       (if o.updateTableOfContents ≠ some false then [StorageEffect.tocAttempt] else []))

/-- Collaborator outcomes where embedding fails and the TOC update
succeeds. -/
def mixedOracles : CreateOracles := ⟨true, true, [], false, true⟩

example : normalizePersonName "John/Doe\\Test:Name*".toList = "John-Doe-Test-Name".toList := by decide

example : normalizePersonName ['-', ' ', 'a'] = [' ', 'a'] := by decide

example : normalizePersonName (normalizePersonName ['-', ' ', 'a']) = ['a'] := by decide

example : wsSplit "John Doe".toList = ["John".toList, "Doe".toList] := by decide

example : wsSplit (' ' :: "a".toList) = [[], "a".toList] := by decide

example : wsSplit ("a".toList ++ [' ']) = ["a".toList, []] := by decide

example : wsSplit [] = [[]] := by decide

example : extractInitials "John Doe".toList = "JD".toList := by decide

example : calculateMatchScore "John Doe".toList "John Doe".toList = 1 := by
  rw [calculateMatchScore, if_neg (by decide), if_pos (by decide)]

example : calculateMatchScore "John Doe".toList "".toList = 0 := by
  rw [calculateMatchScore, if_pos (by decide)]

example : calculateMatchScore "John Doe".toList "john".toList = 4/5 := by
  rw [calculateMatchScore, if_neg (by decide), if_neg (by decide), if_neg (by decide),
    if_pos (by decide)]

example : calculateMatchScore "John Doe".toList "JD".toList = 1/2 := by
  rw [calculateMatchScore, if_neg (by decide), if_neg (by decide), if_neg (by decide),
    if_neg (by decide), if_neg (by decide), if_neg (by decide), if_pos (by decide)]

example :
    (embedInCurrentNote
      ⟨"People".toList, "{name} Meeting Notes.md".toList, .wikilink, .isoWithSeconds, .link, .link⟩
      ⟨"John Doe".toList, "John Doe 2025-09-11--10-18-48.md".toList,
        "People/John Doe/John Doe 2025-09-11--10-18-48.md".toList, ⟨2025, 9, 11, 10, 18, 48⟩⟩
      (some "Existing content".toList)).2 =
    ["Existing content\n\n[[John Doe 2025-09-11--10-18-48]]".toList] := by decide

example :
    generateFileName wikilinkSettings "John Doe".toList ⟨2025, 9, 11, 10, 18, 48⟩ =
      "John Doe 2025-09-11--10-18-48.md".toList := by decide

/-! Theorems: helper lemmas and the claim-level results, starting with the
name normalizer. -/

theorem head?_dropWhile_false {α} (p : α → Bool) :
    ∀ (l : List α) (c : α), (l.dropWhile p).head? = some c → p c = false := by
  intro l
  induction l with
  | nil => intro c h; simp [List.dropWhile] at h
  | cons a l ih =>
    intro c h
    by_cases ha : p a
    · rw [List.dropWhile_cons_of_pos ha] at h
      exact ih c h
    · rw [List.dropWhile_cons_of_neg ha] at h
      simp at h
      rw [← h]
      simpa using ha

theorem getLast?_rdropWhile_false {α} (p : α → Bool) (l : List α) (c : α)
    (h : (l.rdropWhile p).getLast? = some c) : p c = false := by
  rw [List.rdropWhile, List.getLast?_reverse] at h
  exact head?_dropWhile_false p l.reverse c h

theorem head?_eq_of_isPre {α} {r l : List α} (h : r <+: l) (hr : r ≠ []) :
    l.head? = r.head? := by
  obtain ⟨t, rfl⟩ := h
  cases r with
  | nil => exact absurd rfl hr
  | cons a r => simp

theorem head?_stripEdgeHyphens_false (l : List Char) (c : Char)
    (h : (stripEdgeHyphens l).head? = some c) : isHyphen c = false := by
  have hne : stripEdgeHyphens l ≠ [] := by
    intro hnil; rw [hnil] at h; simp at h
  have hpre : stripEdgeHyphens l <+: (l.dropWhile isHyphen) := List.rdropWhile_prefix _ _
  have : (l.dropWhile isHyphen).head? = some c := by
    rw [head?_eq_of_isPre hpre hne]; exact h
  exact head?_dropWhile_false isHyphen l c this

theorem getLast?_stripEdgeHyphens_false (l : List Char) (c : Char)
    (h : (stripEdgeHyphens l).getLast? = some c) : isHyphen c = false :=
  getLast?_rdropWhile_false isHyphen _ c h

theorem stripEdgeHyphens_subset (l : List Char) : stripEdgeHyphens l ⊆ l := by
  intro c hc
  have h1 : stripEdgeHyphens l <+: (l.dropWhile isHyphen) := List.rdropWhile_prefix _ _
  have h2 : l.dropWhile isHyphen <:+ l := List.dropWhile_suffix _
  exact h2.subset (h1.subset hc)

theorem mem_collapseWsGo {c : Char} :
    ∀ {b : Bool} {l : List Char}, c ∈ collapseWsGo b l → c = ' ' ∨ c ∈ l := by
  intro b l
  induction l generalizing b with
  | nil => intro h; simp [collapseWsGo] at h
  | cons a l ih =>
    intro h
    by_cases ha : jsWs a
    · cases b with
      | true =>
        rw [collapseWsGo, if_pos ha, if_pos rfl] at h
        rcases ih h with h' | h'
        · exact Or.inl h'
        · exact Or.inr (List.mem_cons_of_mem _ h')
      | false =>
        rw [collapseWsGo, if_pos ha, if_neg (by simp)] at h
        rcases List.mem_cons.mp h with h' | h'
        · exact Or.inl h'
        · rcases ih h' with h'' | h''
          · exact Or.inl h''
          · exact Or.inr (List.mem_cons_of_mem _ h'')
    · rw [collapseWsGo, if_neg ha] at h
      rcases List.mem_cons.mp h with h' | h'
      · exact Or.inr (h' ▸ List.mem_cons_self _ _)
      · rcases ih h' with h'' | h''
        · exact Or.inl h''
        · exact Or.inr (List.mem_cons_of_mem _ h'')

theorem forbiddenChar_replaceForbidden {c : Char} {l : List Char}
    (h : c ∈ replaceForbidden l) : forbiddenChar c = false := by
  rw [replaceForbidden, List.mem_map] at h
  obtain ⟨a, _, ha⟩ := h
  by_cases hf : forbiddenChar a
  · rw [if_pos hf] at ha; rw [← ha]; decide
  · rw [if_neg hf] at ha; rw [← ha]; simpa using hf

theorem forbiddenChar_normalizePersonName {c : Char} {s : List Char}
    (h : c ∈ normalizePersonName s) : forbiddenChar c = false := by
  have h1 : c ∈ collapseWs (replaceForbidden (jsTrim s)) := stripEdgeHyphens_subset _ h
  rcases mem_collapseWsGo h1 with h2 | h2
  · rw [h2]; decide
  · exact forbiddenChar_replaceForbidden h2

/-- C9: the output of `normalizePersonName` contains no forbidden filesystem
character and neither begins nor ends with a hyphen. -/
theorem normalizePersonName_filesystem_safe (s : List Char) :
    (∀ c ∈ normalizePersonName s, forbiddenChar c = false) ∧
    (normalizePersonName s).head? ≠ some '-' ∧
    (normalizePersonName s).getLast? ≠ some '-' := by
  refine ⟨fun c hc => forbiddenChar_normalizePersonName hc, ?_, ?_⟩
  · intro h
    have := head?_stripEdgeHyphens_false _ _ h
    simp [isHyphen] at this
  · intro h
    have := getLast?_stripEdgeHyphens_false _ _ h
    simp [isHyphen] at this

theorem collapseWsGo_true_head? :
    ∀ (l : List Char) (c : Char), (collapseWsGo true l).head? = some c → jsWs c = false := by
  intro l
  induction l with
  | nil => intro c h; simp [collapseWsGo] at h
  | cons a l ih =>
    intro c h
    by_cases ha : jsWs a
    · rw [collapseWsGo, if_pos ha, if_pos rfl] at h
      exact ih c h
    · rw [collapseWsGo, if_neg ha] at h
      simp at h
      rw [← h]
      simpa using ha

theorem collapseWsGo_wsNormal : ∀ (l : List Char) (b : Bool), WsNormal (collapseWsGo b l) := by
  intro l
  induction l with
  | nil => intro b; exact ⟨by simp [collapseWsGo], by simp [collapseWsGo]⟩
  | cons a l ih =>
    intro b
    by_cases ha : jsWs a
    · cases b with
      | true =>
        rw [collapseWsGo, if_pos ha, if_pos rfl]
        exact ih true
      | false =>
        rw [collapseWsGo, if_pos ha, if_neg (by simp)]
        constructor
        · intro c hc hw
          rcases List.mem_cons.mp hc with h' | h'
          · exact h'.symm ▸ rfl
          · exact (ih true).1 c h' hw
        · rw [List.chain'_cons']
          refine ⟨fun y hy => Or.inr (collapseWsGo_true_head? l y hy), (ih true).2⟩
    · rw [collapseWsGo, if_neg ha]
      constructor
      · intro c hc hw
        rcases List.mem_cons.mp hc with h' | h'
        · exact absurd (h' ▸ hw) (by simpa using ha)
        · exact (ih false).1 c h' hw
      · rw [List.chain'_cons']
        refine ⟨fun y _ => Or.inl (by simpa using ha), (ih false).2⟩

theorem collapseWsGo_eq_self :
    ∀ (l : List Char), (∀ c ∈ l, jsWs c = true → c = ' ') →
    l.Chain' (fun a b => jsWs a = false ∨ jsWs b = false) →
    ∀ (b : Bool), (b = true → ∀ c, l.head? = some c → jsWs c = false) →
    collapseWsGo b l = l := by
  intro l
  induction l with
  | nil => intro _ _ b _; cases b <;> rfl
  | cons a l ih =>
    intro hsingle hchain b hhead
    obtain ⟨hrel, hchain'⟩ := List.chain'_cons'.mp hchain
    by_cases ha : jsWs a
    · cases b with
      | true => exact absurd (hhead rfl a rfl) (by simpa using ha)
      | false =>
        rw [collapseWsGo, if_pos ha, if_neg (by simp)]
        have ha' : a = ' ' := hsingle a (List.mem_cons_self _ _) ha
        have htail : collapseWsGo true l = l := by
          refine ih (fun c hc hw => hsingle c (List.mem_cons_of_mem _ hc) hw) hchain' true ?_
          intro _ c hc
          rcases hrel c hc with h' | h'
          · exact absurd ha (by simpa using h')
          · exact h'
        rw [htail, ha']
    · rw [collapseWsGo, if_neg ha]
      have htail : collapseWsGo false l = l := by
        refine ih (fun c hc hw => hsingle c (List.mem_cons_of_mem _ hc) hw) hchain' false ?_
        intro h
        exact absurd h (by simp)
      rw [htail]

theorem replaceForbidden_eq_self {l : List Char}
    (h : ∀ c ∈ l, forbiddenChar c = false) : replaceForbidden l = l := by
  induction l with
  | nil => rfl
  | cons a l ih =>
    rw [replaceForbidden, List.map_cons]
    rw [if_neg (by simpa using h a (List.mem_cons_self _ _))]
    rw [show List.map (fun c => if forbiddenChar c then '-' else c) l = replaceForbidden l from rfl]
    rw [ih (fun c hc => h c (List.mem_cons_of_mem _ hc))]

theorem dropWhile_eq_self_of_head? {α} (p : α → Bool) (l : List α)
    (h : ∀ c, l.head? = some c → p c = false) : l.dropWhile p = l := by
  cases l with
  | nil => rfl
  | cons a l =>
    have := h a rfl
    rw [List.dropWhile_cons_of_neg (by simp [this])]

theorem rdropWhile_eq_self_of_getLast? {α} (p : α → Bool) (l : List α)
    (h : ∀ c, l.getLast? = some c → p c = false) : l.rdropWhile p = l := by
  rw [List.rdropWhile]
  rw [dropWhile_eq_self_of_head? p l.reverse
      (fun c hc => h c (by rwa [List.head?_reverse] at hc))]
  exact List.reverse_reverse l

theorem stripEdgeHyphens_isInf (l : List Char) : stripEdgeHyphens l <:+: l := by
  have h1 : stripEdgeHyphens l <+: (l.dropWhile isHyphen) := List.rdropWhile_prefix _ _
  have h2 : l.dropWhile isHyphen <:+ l := List.dropWhile_suffix _
  exact List.IsInfix.trans h1.isInfix h2.isInfix

theorem wsNormal_of_isInf {l l' : List Char} (h : WsNormal l) (hinf : l' <:+: l) :
    WsNormal l' :=
  ⟨fun c hc hw => h.1 c (hinf.subset hc) hw, List.Chain'.infix h.2 hinf⟩

theorem wsNormal_normalizePersonName (s : List Char) : WsNormal (normalizePersonName s) :=
  wsNormal_of_isInf (collapseWsGo_wsNormal _ false) (stripEdgeHyphens_isInf _)

theorem head?_normalizePersonName_false (s : List Char) (c : Char)
    (h : (normalizePersonName s).head? = some c) : isHyphen c = false := by
  rw [normalizePersonName] at h
  exact head?_stripEdgeHyphens_false _ c h

theorem getLast?_normalizePersonName_false (s : List Char) (c : Char)
    (h : (normalizePersonName s).getLast? = some c) : isHyphen c = false := by
  rw [normalizePersonName] at h
  exact getLast?_stripEdgeHyphens_false _ c h

/-- C3 counterexample: normalization is not idempotent. On the input
consisting of a hyphen, a space and the letter a, one application yields
a string with a leading space, and a second application removes it. -/
theorem normalizePersonName_not_idempotent :
    normalizePersonName (normalizePersonName ['-', ' ', 'a']) ≠
      normalizePersonName ['-', ' ', 'a'] := by decide

/-- C3 amended: normalization is idempotent on every input whose normalized
form carries no leading or trailing whitespace (stripping edge hyphens can
otherwise expose whitespace that a second application trims away). -/
theorem normalizePersonName_idempotent_of_trimmed (s : List Char)
    (h : jsTrim (normalizePersonName s) = normalizePersonName s) :
    normalizePersonName (normalizePersonName s) = normalizePersonName s := by
  have hforb : ∀ c ∈ normalizePersonName s, forbiddenChar c = false :=
    fun c hc => forbiddenChar_normalizePersonName hc
  have hwn : WsNormal (normalizePersonName s) := wsNormal_normalizePersonName s
  conv_lhs => rw [normalizePersonName]
  rw [h, replaceForbidden_eq_self hforb, collapseWs,
    collapseWsGo_eq_self _ hwn.1 hwn.2 false (by simp), stripEdgeHyphens,
    dropWhile_eq_self_of_head? isHyphen _
      (fun c hc => head?_normalizePersonName_false s c hc),
    rdropWhile_eq_self_of_getLast? isHyphen _
      (fun c hc => getLast?_normalizePersonName_false s c hc)]

/-- C3 witness: a concrete instantiation of the amended idempotence theorem. -/
theorem normalizePersonName_idempotent_witness :
    jsTrim (normalizePersonName "John Doe".toList) = normalizePersonName "John Doe".toList ∧
    normalizePersonName (normalizePersonName "John Doe".toList) =
      normalizePersonName "John Doe".toList :=
  ⟨by decide, normalizePersonName_idempotent_of_trimmed _ (by decide)⟩

theorem subseqMatches_le_right : ∀ (n q : List Char), subseqMatches n q ≤ q.length := by
  intro n
  induction n with
  | nil => intro q; simp [subseqMatches]
  | cons c cs ih =>
    intro q
    cases q with
    | nil => simp [subseqMatches]
    | cons d ds =>
      rw [subseqMatches]
      by_cases h : c = d
      · rw [if_pos h]
        simpa using ih ds
      · rw [if_neg h]
        exact ih (d :: ds)

theorem subseqMatches_le_left : ∀ (n q : List Char), subseqMatches n q ≤ n.length := by
  intro n
  induction n with
  | nil => intro q; simp [subseqMatches]
  | cons c cs ih =>
    intro q
    cases q with
    | nil => simp [subseqMatches]
    | cons d ds =>
      rw [subseqMatches]
      by_cases h : c = d
      · rw [if_pos h]
        simpa using ih ds
      · rw [if_neg h]
        exact Nat.le_succ_of_le (ih (d :: ds))

theorem subseqMatches_eq_full :
    ∀ (n q : List Char), subseqMatches n q = n.length → n.length = q.length → n = q := by
  intro n
  induction n with
  | nil =>
    intro q _ hlen
    exact (List.length_eq_zero.mp hlen.symm).symm
  | cons c cs ih =>
    intro q hm hlen
    cases q with
    | nil => simp at hlen
    | cons d ds =>
      rw [subseqMatches] at hm
      by_cases h : c = d
      · rw [if_pos h] at hm
        simp only [List.length_cons, Nat.succ.injEq] at hm hlen
        rw [h, ih ds hm hlen]
      · rw [if_neg h] at hm
        have := subseqMatches_le_left cs (d :: ds)
        simp only [List.length_cons] at hm
        omega

/-- The fuzzy score is strictly below 1 whenever the (lowercased) candidate
and query differ; this is what keeps the approximate tier from reaching the
exact-match score. -/
theorem calculateFuzzyScore_lt_one (name q : List Char) (hne : name ≠ q) (hq : q ≠ []) :
    calculateFuzzyScore name q < 1 := by
  rw [calculateFuzzyScore]
  have hq' : 0 < q.length := List.length_pos.mpr hq
  have hqQ : (0 : ℚ) < (q.length : ℚ) := by exact_mod_cast hq'
  rcases Nat.eq_zero_or_pos name.length with hn | hn
  · rw [hn]
    norm_num
  · have hnQ : (0 : ℚ) < (name.length : ℚ) := by exact_mod_cast hn
    rcases lt_or_ge q.length name.length with hlt | hge
    · have hpen : min (1 : ℚ) ((q.length : ℚ) / (name.length : ℚ)) =
          (q.length : ℚ) / (name.length : ℚ) :=
        min_eq_right ((div_le_one hnQ).mpr (by exact_mod_cast hlt.le))
      rw [hpen]
      have hratio : ((subseqMatches name q : ℚ) / (q.length : ℚ)) ≤ 1 :=
        (div_le_one hqQ).mpr (by exact_mod_cast subseqMatches_le_right name q)
      have hpos : (0 : ℚ) ≤ (q.length : ℚ) / (name.length : ℚ) :=
        div_nonneg hqQ.le hnQ.le
      calc (subseqMatches name q : ℚ) / (q.length : ℚ) *
            ((q.length : ℚ) / (name.length : ℚ))
          ≤ (q.length : ℚ) / (name.length : ℚ) := mul_le_of_le_one_left hpos hratio
        _ < 1 := (div_lt_one hnQ).mpr (by exact_mod_cast hlt)
    · have hpen : min (1 : ℚ) ((q.length : ℚ) / (name.length : ℚ)) = 1 :=
        min_eq_left ((one_le_div hnQ).mpr (by exact_mod_cast hge))
      rw [hpen, mul_one]
      have hm : subseqMatches name q < q.length := by
        rcases Nat.lt_or_ge (subseqMatches name q) q.length with h | h
        · exact h
        · exfalso
          have hmq : subseqMatches name q = q.length :=
            le_antisymm (subseqMatches_le_right _ _) h
          have hmn := subseqMatches_le_left name q
          have hlen : name.length = q.length := le_antisymm hge (hmq ▸ hmn)
          exact hne (subseqMatches_eq_full name q (by omega) hlen)
      exact (div_lt_one hqQ).mpr (by exact_mod_cast hm)

theorem matchingWordsCount_le (personName query : List Char) :
    matchingWordsCount personName query ≤ (wsSplit (lower query)).length :=
  List.length_filter_le _ _

/-- C1 counterexample: on candidate John and query john the score is the
full 1.0 even though the two differ case-sensitively (the spec's 0.95 tier
is unreachable because the first comparison is already case-insensitive). -/
theorem calculateMatchScore_case_counterexample :
    calculateMatchScore "John".toList "john".toList = 1 ∧
    "John".toList ≠ "john".toList := by
  constructor
  · rw [calculateMatchScore, if_neg (by decide), if_pos (by decide)]
  · decide

/-- C1 amended: the score is exactly 1.0 precisely when the query is not
pure whitespace and candidate and query are equal case-insensitively; there
is no case-sensitive distinction at the top tier. -/
theorem calculateMatchScore_eq_one_iff (personName query : List Char) :
    calculateMatchScore personName query = 1 ↔
      (jsTrim query ≠ [] ∧ lower personName = lower query) := by
  rw [calculateMatchScore]
  split_ifs with h1 h2 h3 h4 h5 h6 h7 h8 h9
  · constructor
    · intro h; exact absurd h (by norm_num)
    · intro h; exact absurd h1 h.1
  · constructor
    · intro _; exact ⟨h1, h2⟩
    · intro _; rfl
  · constructor
    · intro h; exact absurd h (by norm_num)
    · intro h; exact absurd h.2 h2
  · constructor
    · intro h; exact absurd h (by norm_num)
    · intro h; exact absurd h.2 h2
  · constructor
    · intro h; exact absurd h (by norm_num)
    · intro h; exact absurd h.2 h2
  · constructor
    · intro h; exact absurd h (by norm_num)
    · intro h; exact absurd h.2 h2
  · constructor
    · intro h
      exfalso
      have hqne : query ≠ [] := by
        intro hq
        exact h1 (by rw [hq]; rfl)
      have hlq : lower query ≠ [] := by
        rw [lower]
        simpa using hqne
      exact absurd h
        (ne_of_lt (calculateFuzzyScore_lt_one (lower personName) (lower query) h2 hlq))
    · intro h; exact absurd h.2 h2
  · constructor
    · intro h; exact absurd h (by norm_num)
    · intro h; exact absurd h.2 h2
  · constructor
    · intro h
      exfalso
      have hle : matchingWordsCount personName query ≤ (wsSplit (lower query)).length :=
        matchingWordsCount_le personName query
      have hqw : 0 < (wsSplit (lower query)).length := lt_of_lt_of_le h9 hle
      have hx : ((matchingWordsCount personName query : ℚ) /
          ((wsSplit (lower query)).length : ℚ)) ≤ 1 :=
        (div_le_one (by exact_mod_cast hqw)).mpr (by exact_mod_cast hle)
      have hb : (1 : ℚ)/5 + ((matchingWordsCount personName query : ℚ) /
          ((wsSplit (lower query)).length : ℚ)) * (1/5) ≤ 1/5 + 1 * (1/5) :=
        add_le_add_left (mul_le_mul_of_nonneg_right hx (by norm_num)) _
      rw [h] at hb
      norm_num at hb
    · intro h; exact absurd h.2 h2
  · constructor
    · intro h; exact absurd h (by norm_num)
    · intro h; exact absurd h.2 h2

/-- Concrete evaluation of the fuzzy score at lowercased ab versus ba. -/
theorem fuzzy_ab_ba_gt :
    (3/10 : ℚ) < calculateFuzzyScore (lower "ab".toList) (lower "ba".toList) := by
  have h1 : subseqMatches (lower "ab".toList) (lower "ba".toList) = 1 := by decide
  have h2 : (lower "ba".toList).length = 2 := by decide
  have h3 : (lower "ab".toList).length = 2 := by decide
  rw [calculateFuzzyScore, h1, h2, h3]
  norm_num

/-- C4 counterexample: at candidate abc and query abd, tiers 1 through 7 all
fail, the fuzzy tier fires, and the returned score is 2/3 — not below the
initials tier's 0.5, and not below the substring tier's 0.6 either. -/
theorem fuzzyTier_score_counterexample :
    calculateMatchScore "abc".toList "abd".toList = 2/3 ∧
    ¬ calculateMatchScore "abc".toList "abd".toList < 1/2 ∧
    ¬ calculateMatchScore "abc".toList "abd".toList < 3/5 := by
  have hfz : calculateFuzzyScore (lower "abc".toList) (lower "abd".toList) = 2/3 := by
    have h1 : subseqMatches (lower "abc".toList) (lower "abd".toList) = 2 := by decide
    have h2 : (lower "abd".toList).length = 3 := by decide
    have h3 : (lower "abc".toList).length = 3 := by decide
    rw [calculateFuzzyScore, h1, h2, h3]
    norm_num
  have hscore : calculateMatchScore "abc".toList "abd".toList =
      calculateFuzzyScore (lower "abc".toList) (lower "abd".toList) := by
    rw [calculateMatchScore, if_neg (by decide), if_neg (by decide), if_neg (by decide),
      if_neg (by decide), if_neg (by decide), if_neg (by decide), if_neg (by decide),
      if_pos (by rw [hfz]; norm_num)]
  rw [hscore, hfz]
  norm_num

/-- C4 amended: whenever tiers 1 through 7 all fail and the fuzzy tier's
score exceeds the 0.3 cutoff, the overall score equals the fuzzy score and
lies strictly between 0.3 and 1; it is not in general below 0.5. -/
theorem fuzzyTier_bounds (personName query : List Char)
    (h1 : jsTrim query ≠ [])
    (h2 : lower personName ≠ lower query)
    (h3 : ¬ lower query <+: lower personName)
    (h4 : ¬ ((' ' :: lower query) <:+: lower personName ∨
             (lower query ++ [' ']) <:+: lower personName))
    (h5 : ¬ lower query <:+: lower personName)
    (h6 : lower (extractInitials personName) ≠ lower query)
    (h7 : 3/10 < calculateFuzzyScore (lower personName) (lower query)) :
    calculateMatchScore personName query =
      calculateFuzzyScore (lower personName) (lower query) ∧
    3/10 < calculateMatchScore personName query ∧
    calculateMatchScore personName query < 1 := by
  have hqne : query ≠ [] := by
    intro hq
    exact h1 (by rw [hq]; rfl)
  have hq : lower query ≠ [] := by
    rw [lower]
    simpa using hqne
  have hscore : calculateMatchScore personName query =
      calculateFuzzyScore (lower personName) (lower query) := by
    rw [calculateMatchScore, if_neg h1, if_neg h2, if_neg h2, if_neg h3, if_neg h4,
      if_neg h5, if_neg h6, if_pos h7]
  refine ⟨hscore, ?_, ?_⟩
  · rw [hscore]; exact h7
  · rw [hscore]; exact calculateFuzzyScore_lt_one _ _ h2 hq

/-- C4 witness: the fuzzy-tier bounds instantiated at candidate ab and
query ba, where the fuzzy tier returns exactly 1/2. -/
theorem fuzzyTier_bounds_witness :
    calculateMatchScore "ab".toList "ba".toList =
      calculateFuzzyScore (lower "ab".toList) (lower "ba".toList) ∧
    3/10 < calculateMatchScore "ab".toList "ba".toList ∧
    calculateMatchScore "ab".toList "ba".toList < 1 :=
  fuzzyTier_bounds "ab".toList "ba".toList (by decide) (by decide) (by decide)
    (by decide) (by decide) (by decide) fuzzy_ab_ba_gt

theorem intercalate_one {α} (sep : List α) (a : List α) :
    sep.intercalate [a] = a := by
  simp [List.intercalate]

theorem intercalate_cons_cons {α} (sep a b : List α) (t : List (List α)) :
    sep.intercalate (a :: b :: t) = a ++ sep ++ sep.intercalate (b :: t) := by
  simp [List.intercalate, List.intersperse]

theorem isInf_append_right {α} {x z : List α} (y : List α) (h : x <:+: z) :
    x <:+: y ++ z := by
  obtain ⟨s, t, rfl⟩ := h
  exact ⟨y ++ s, t, by simp⟩

theorem isInf_intercalate_of_mem {α} (sep : List α) :
    ∀ (L : List (List α)) (x : List α), x ∈ L → x <:+: sep.intercalate L := by
  intro L
  induction L with
  | nil => intro x hx; simp at hx
  | cons a t ih =>
    intro x hx
    rcases List.mem_cons.mp hx with h | h
    · subst h
      cases t with
      | nil => rw [intercalate_one]
      | cons b t' =>
        rw [intercalate_cons_cons]
        exact ⟨[], sep ++ sep.intercalate (b :: t'), by simp⟩
    · cases t with
      | nil => simp at h
      | cons b t' =>
        rw [intercalate_cons_cons]
        rw [List.append_assoc]
        exact isInf_append_right a (isInf_append_right sep (ih x h))

theorem updatePersonTocWithNote_of_contains (s : PeopleNotesSettings) (note : NoteInfo)
    (c : List Char)
    (h : formatNoteLink note s.embeddingFormat s.tocContentType <:+: c) :
    updatePersonTocWithNote s c note = c := by
  simp only [updatePersonTocWithNote]
  rw [if_pos h]

/-- C7: the single-entry table-of-contents update is idempotent — once the
entry is present (which the update itself guarantees), a second identical
update leaves the document text byte-identical. -/
theorem updatePersonTocWithNote_idempotent (s : PeopleNotesSettings)
    (tocContent : List Char) (note : NoteInfo) :
    updatePersonTocWithNote s (updatePersonTocWithNote s tocContent note) note =
      updatePersonTocWithNote s tocContent note := by
  by_cases h : formatNoteLink note s.embeddingFormat s.tocContentType <:+: tocContent
  · rw [updatePersonTocWithNote_of_contains s note tocContent h]
    exact updatePersonTocWithNote_of_contains s note tocContent h
  · have hresult : updatePersonTocWithNote s tocContent note =
        ['\n'].intercalate
          ((tocContent.splitOn '\n').take (tocInsertIndex (tocContent.splitOn '\n')) ++
            ('-' :: ' ' :: formatNoteLink note s.embeddingFormat s.tocContentType) ::
              (tocContent.splitOn '\n').drop (tocInsertIndex (tocContent.splitOn '\n'))) := by
      simp only [updatePersonTocWithNote]
      rw [if_neg h]
    have hmem : ('-' :: ' ' :: formatNoteLink note s.embeddingFormat s.tocContentType) ∈
        ((tocContent.splitOn '\n').take (tocInsertIndex (tocContent.splitOn '\n')) ++
          ('-' :: ' ' :: formatNoteLink note s.embeddingFormat s.tocContentType) ::
            (tocContent.splitOn '\n').drop (tocInsertIndex (tocContent.splitOn '\n'))) := by
      simp
    have hinf : formatNoteLink note s.embeddingFormat s.tocContentType <:+:
        updatePersonTocWithNote s tocContent note := by
      rw [hresult]
      have hstep : formatNoteLink note s.embeddingFormat s.tocContentType <:+:
          ('-' :: ' ' :: formatNoteLink note s.embeddingFormat s.tocContentType) :=
        ⟨['-', ' '], [], by simp⟩
      exact List.IsInfix.trans hstep (isInf_intercalate_of_mem ['\n'] _ _ hmem)
    exact updatePersonTocWithNote_of_contains s note _ hinf

/-- C8: with no active document the embed returns failure and issues zero
writes; with an active document of body B it issues exactly one write, whose
content is B followed by two newlines and the formatted reference, and
returns success. -/
theorem embedInCurrentNote_spec (s : PeopleNotesSettings) (note : NoteInfo) (B : List Char) :
    embedInCurrentNote s note none = (false, []) ∧
    embedInCurrentNote s note (some B) =
      (true, [B ++ '\n' :: '\n' :: formatNoteLink note s.embeddingFormat s.noteEmbedType]) :=
  ⟨rfl, rfl⟩

theorem findDivider_eq_none {lines : List (List Char)}
    (h : ∀ l ∈ lines, jsTrim l ≠ ['-', '-', '-']) : findDivider lines = none := by
  induction lines with
  | nil => rfl
  | cons a t ih =>
    rw [findDivider, if_neg (h a (List.mem_cons_self _ _)),
      ih (fun l hl => h l (List.mem_cons_of_mem _ hl))]
    rfl

theorem intercalate_append_one {α} (sep : List α) :
    ∀ (L : List (List α)) (x : List α), L ≠ [] →
    sep.intercalate (L ++ [x]) = sep.intercalate L ++ sep ++ x := by
  intro L
  induction L with
  | nil => intro x h; exact absurd rfl h
  | cons a t ih =>
    intro x _
    cases t with
    | nil => rw [List.singleton_append, intercalate_cons_cons, intercalate_one, intercalate_one]
    | cons b t' =>
      have e1 : (a :: b :: t') ++ [x] = a :: b :: (t' ++ [x]) := rfl
      rw [e1, intercalate_cons_cons]
      rw [intercalate_cons_cons sep a b t']
      have e2 : b :: (t' ++ [x]) = (b :: t') ++ [x] := rfl
      rw [e2, ih x (by simp)]
      simp [List.append_assoc]

theorem splitOn_char_ne_nil (c : Char) (l : List Char) : l.splitOn c ≠ [] := by
  simp only [List.splitOn]
  exact List.splitOnP_ne_nil _ l

/-- C10 amended: on a document with no divider line, the update appends the
entry as the last line — provided the note's reference string does not
already occur in the text (otherwise the duplicate check makes it a no-op). -/
theorem updatePersonTocWithNote_no_divider (s : PeopleNotesSettings) (note : NoteInfo)
    (tocContent : List Char)
    (hdiv : ∀ l ∈ tocContent.splitOn '\n', jsTrim l ≠ ['-', '-', '-'])
    (hnot : ¬ formatNoteLink note s.embeddingFormat s.tocContentType <:+: tocContent) :
    updatePersonTocWithNote s tocContent note =
      tocContent ++ '\n' :: '-' :: ' ' ::
        formatNoteLink note s.embeddingFormat s.tocContentType := by
  simp only [updatePersonTocWithNote]
  rw [if_neg hnot]
  have hidx : tocInsertIndex (tocContent.splitOn '\n') = (tocContent.splitOn '\n').length := by
    simp only [tocInsertIndex, findDivider_eq_none hdiv]
  rw [hidx, List.take_length, List.drop_length]
  rw [show ('-' :: ' ' :: formatNoteLink note s.embeddingFormat s.tocContentType) :: ([] : List (List Char)) =
    [('-' :: ' ' :: formatNoteLink note s.embeddingFormat s.tocContentType)] from rfl]
  rw [intercalate_append_one ['\n'] _ _ (splitOn_char_ne_nil '\n' tocContent)]
  rw [List.intercalate_splitOn]
  simp

/-- C10 counterexample: a divider-free document that already contains the
note's reference is left unchanged — the entry is not appended as a last
line. -/
theorem updatePersonTocWithNote_dedup_counterexample :
    (∀ l ∈ ("[[X]]".toList).splitOn '\n', jsTrim l ≠ ['-', '-', '-']) ∧
    updatePersonTocWithNote wikilinkSettings "[[X]]".toList noteX = "[[X]]".toList ∧
    "[[X]]".toList ≠ "[[X]]".toList ++ '\n' :: '-' :: ' ' ::
      formatNoteLink noteX wikilinkSettings.embeddingFormat wikilinkSettings.tocContentType := by
  refine ⟨by decide, ?_, by decide⟩
  exact updatePersonTocWithNote_of_contains _ _ _ (by decide)

/-- C10 witness: the append behaviour at a concrete divider-free document
that does not yet contain the reference. -/
theorem updatePersonTocWithNote_no_divider_witness :
    updatePersonTocWithNote wikilinkSettings "hello".toList noteX =
      "hello".toList ++ '\n' :: '-' :: ' ' ::
        formatNoteLink noteX wikilinkSettings.embeddingFormat wikilinkSettings.tocContentType :=
  updatePersonTocWithNote_no_divider wikilinkSettings noteX "hello".toList
    (by decide) (by decide)

theorem jsTrim_head_ne {c : Char} (rest : List Char) (hws : jsWs c = false)
    (hc : c ≠ '-') : jsTrim (c :: rest) ≠ ['-', '-', '-'] := by
  intro h
  rw [jsTrim, List.dropWhile_cons_of_neg (by simp [hws])] at h
  have hpre : (c :: rest).rdropWhile jsWs <+: (c :: rest) := List.rdropWhile_prefix _ _
  rw [h] at hpre
  obtain ⟨t, ht⟩ := hpre
  injection ht with h1 _
  exact hc h1.symm

theorem jsTrim_hyphen_ne_nil (rest : List Char) : jsTrim ('-' :: rest) ≠ [] := by
  rw [jsTrim, List.dropWhile_cons_of_neg (by decide)]
  intro h
  rw [List.rdropWhile_eq_nil_iff] at h
  have := h '-' (List.mem_cons_self _ _)
  simp [jsWs] at this

theorem findDivider_cons (l : List Char) (rest : List (List Char)) :
    findDivider (l :: rest) =
      if jsTrim l = ['-', '-', '-'] then some 0
      else (findDivider rest).map (· + 1) := rfl

theorem findDivider_header (n : List Char) (es : List (List Char)) :
    findDivider (tocHeaderLines n ++ es) = some 4 := by
  have e0 : "# ".toList ++ n ++ " Meeting Notes".toList =
      '#' :: ' ' :: (n ++ " Meeting Notes".toList) := rfl
  have e2 : "This file tracks all notes for ".toList ++ n ++
      ", automatically updated when new notes are created.".toList =
      'T' :: ("his file tracks all notes for ".toList ++ n ++
        ", automatically updated when new notes are created.".toList) := rfl
  rw [tocHeaderLines]
  rw [List.cons_append, findDivider_cons,
    if_neg (e0 ▸ jsTrim_head_ne _ (by decide) (by decide))]
  rw [List.cons_append, findDivider_cons, if_neg (by decide)]
  rw [List.cons_append, findDivider_cons,
    if_neg (e2 ▸ jsTrim_head_ne _ (by decide) (by decide))]
  rw [List.cons_append, findDivider_cons, if_neg (by decide)]
  rw [List.cons_append, findDivider_cons, if_pos (by decide)]
  rfl

theorem takeWhile_blank_entries {es : List (List Char)}
    (hes : ∀ e ∈ es, ∃ l, e = '-' :: ' ' :: l) :
    es.takeWhile (fun l => decide (jsTrim l = [])) = [] := by
  cases es with
  | nil => rfl
  | cons e es' =>
    obtain ⟨l, rfl⟩ := hes e (List.mem_cons_self _ _)
    rw [List.takeWhile_cons_of_neg]
    simpa using jsTrim_hyphen_ne_nil (' ' :: l)

theorem tocInsertIndex_header (n : List Char) (es : List (List Char))
    (hes : ∀ e ∈ es, ∃ l, e = '-' :: ' ' :: l) :
    tocInsertIndex (tocHeaderLines n ++ es) = 7 := by
  simp only [tocInsertIndex, findDivider_header n es]
  have hdrop : (tocHeaderLines n ++ es).drop 5 = [] :: [] :: es := rfl
  rw [hdrop]
  rw [List.takeWhile_cons_of_pos (by decide), List.takeWhile_cons_of_pos (by decide)]
  rw [takeWhile_blank_entries hes]
  rfl

theorem tocHeaderLines_no_newline {n : List Char} (hn : ('\n' : Char) ∉ n) :
    ∀ l ∈ tocHeaderLines n, ('\n' : Char) ∉ l := by
  intro l hl
  simp only [tocHeaderLines, List.mem_cons, List.not_mem_nil, or_false] at hl
  rcases hl with h | h | h | h | h | h | h <;> subst h <;>
    simp [List.mem_append, hn]

theorem createInitialTocContent_eq (n : List Char) :
    createInitialTocContent n = ['\n'].intercalate (tocHeaderLines n) := by
  have e1 : " Meeting Notes\n\nThis file tracks all notes for ".toList =
      " Meeting Notes".toList ++ '\n' :: '\n' :: "This file tracks all notes for ".toList := by
    decide
  have e2 : ", automatically updated when new notes are created.\n\n---\n\n".toList =
      ", automatically updated when new notes are created.".toList ++
        '\n' :: '\n' :: '-' :: '-' :: '-' :: '\n' :: '\n' :: [] := by decide
  rw [createInitialTocContent, e1, e2, tocHeaderLines]
  rw [intercalate_cons_cons, intercalate_cons_cons, intercalate_cons_cons,
    intercalate_cons_cons, intercalate_cons_cons, intercalate_cons_cons, intercalate_one]
  simp [List.append_assoc]

theorem isPre_append_cons {α} {a : List α} {c : α} (hc : c ∉ a) :
    ∀ {xs ys : List α}, a <+: xs ++ c :: ys → a <+: xs := by
  induction a with
  | nil => intro xs ys _; exact List.nil_prefix
  | cons b a' ih =>
    intro xs ys h
    cases xs with
    | nil =>
      rw [List.nil_append, List.cons_prefix_cons] at h
      exact absurd (h.1 ▸ List.mem_cons_self b a') hc
    | cons x xs' =>
      rw [List.cons_append, List.cons_prefix_cons] at h
      rw [List.cons_prefix_cons]
      exact ⟨h.1, ih (fun hm => hc (List.mem_cons_of_mem _ hm)) h.2⟩

theorem isInf_append_cons_split {α} {a : List α} {c : α} (hc : c ∉ a) :
    ∀ {xs ys : List α}, a <:+: xs ++ c :: ys → a <:+: xs ∨ a <:+: ys := by
  intro xs
  induction xs with
  | nil =>
    intro ys h
    rw [List.nil_append, List.infix_cons_iff] at h
    rcases h with h | h
    · have : a <+: ([] : List α) ++ c :: ys := by rwa [List.nil_append]
      have := isPre_append_cons hc this
      exact Or.inl this.isInfix
    · exact Or.inr h
  | cons x xs' ih =>
    intro ys h
    rw [List.cons_append, List.infix_cons_iff] at h
    rcases h with h | h
    · have hx : a <+: (x :: xs') ++ c :: ys := by rwa [List.cons_append]
      exact Or.inl (isPre_append_cons hc hx).isInfix
    · rcases ih h with h' | h'
      · exact Or.inl (List.infix_cons h')
      · exact Or.inr h'

theorem isInf_intercalate_decomp {a : List Char} (ha : ('\n' : Char) ∉ a) :
    ∀ (L : List (List Char)), L ≠ [] → a <:+: ['\n'].intercalate L → ∃ l ∈ L, a <:+: l := by
  intro L
  induction L with
  | nil => intro h; exact absurd rfl h
  | cons l t ih =>
    intro _ h
    cases t with
    | nil =>
      rw [intercalate_one] at h
      exact ⟨l, List.mem_cons_self _ _, h⟩
    | cons b t' =>
      rw [intercalate_cons_cons, List.append_assoc, List.singleton_append] at h
      rcases isInf_append_cons_split ha h with h' | h'
      · exact ⟨l, List.mem_cons_self _ _, h'⟩
      · obtain ⟨l', hl', hinf⟩ := ih (by simp) h'
        exact ⟨l', List.mem_cons_of_mem _ hl', hinf⟩

/-- One step of the regeneration loop: inserting a fresh entry into a
document of the canonical shape (header lines followed by entry lines)
prepends the entry to the entry block. -/
theorem updateToc_step (s : PeopleNotesSettings) (n : List Char) (es : List (List Char))
    (note : NoteInfo)
    (hn : ('\n' : Char) ∉ n)
    (hes1 : ∀ e ∈ es, ∃ l, e = '-' :: ' ' :: l)
    (hes2 : ∀ e ∈ es, ('\n' : Char) ∉ e)
    (hL : ('\n' : Char) ∉ formatNoteLink note s.embeddingFormat s.tocContentType)
    (hded : ∀ l ∈ tocHeaderLines n ++ es,
      ¬ formatNoteLink note s.embeddingFormat s.tocContentType <:+: l) :
    updatePersonTocWithNote s (['\n'].intercalate (tocHeaderLines n ++ es)) note =
      ['\n'].intercalate (tocHeaderLines n ++
        ('-' :: ' ' :: formatNoteLink note s.embeddingFormat s.tocContentType) :: es) := by
  have hlines_nonil : tocHeaderLines n ++ es ≠ [] := by simp [tocHeaderLines]
  have hnl : ∀ l ∈ tocHeaderLines n ++ es, ('\n' : Char) ∉ l := by
    intro l hl
    rcases List.mem_append.mp hl with h | h
    · exact tocHeaderLines_no_newline hn l h
    · exact hes2 l h
  have hsplit : (['\n'].intercalate (tocHeaderLines n ++ es)).splitOn '\n' =
      tocHeaderLines n ++ es :=
    List.splitOn_intercalate _ '\n' hnl hlines_nonil
  have hnotinf : ¬ formatNoteLink note s.embeddingFormat s.tocContentType <:+:
      ['\n'].intercalate (tocHeaderLines n ++ es) := by
    intro h
    obtain ⟨l, hl, hinf⟩ := isInf_intercalate_decomp hL _ hlines_nonil h
    exact hded l hl hinf
  simp only [updatePersonTocWithNote]
  rw [if_neg hnotinf, hsplit, tocInsertIndex_header n es hes1]
  have htake : (tocHeaderLines n ++ es).take 7 = tocHeaderLines n := by
    rw [show (7 : Nat) = (tocHeaderLines n).length from rfl]
    exact List.take_left _ _
  have hdrop : (tocHeaderLines n ++ es).drop 7 = es := by
    rw [show (7 : Nat) = (tocHeaderLines n).length from rfl]
    exact List.drop_left _ _
  rw [htake, hdrop]

/-- The regeneration loop maintains the canonical document shape: after
processing the notes in order, the entry block holds the processed notes'
entries in reverse processing order. -/
theorem regen_fold (s : PeopleNotesSettings) (n : List Char) (hn : ('\n' : Char) ∉ n) :
    ∀ (notes : List NoteInfo) (es : List (List Char)),
    (∀ e ∈ es, ∃ l, e = '-' :: ' ' :: l) →
    (∀ e ∈ es, ('\n' : Char) ∉ e) →
    (∀ note ∈ notes, ('\n' : Char) ∉ formatNoteLink note s.embeddingFormat s.tocContentType) →
    (∀ note ∈ notes, ∀ l ∈ tocHeaderLines n,
      ¬ formatNoteLink note s.embeddingFormat s.tocContentType <:+: l) →
    (∀ note ∈ notes, ∀ e ∈ es,
      ¬ formatNoteLink note s.embeddingFormat s.tocContentType <:+: e) →
    List.Pairwise (fun a b => ¬ formatNoteLink b s.embeddingFormat s.tocContentType <:+:
      ('-' :: ' ' :: formatNoteLink a s.embeddingFormat s.tocContentType)) notes →
    notes.foldl (fun content note => updatePersonTocWithNote s content note)
        (['\n'].intercalate (tocHeaderLines n ++ es)) =
      ['\n'].intercalate (tocHeaderLines n ++
        ((notes.map (fun note =>
          '-' :: ' ' :: formatNoteLink note s.embeddingFormat s.tocContentType)).reverse ++ es)) := by
  intro notes
  induction notes with
  | nil =>
    intro es _ _ _ _ _ _
    simp
  | cons note rest ih =>
    intro es hes1 hes2 hlinks hhdr hese hpw
    obtain ⟨hpw1, hpw2⟩ := List.pairwise_cons.mp hpw
    rw [List.foldl_cons]
    rw [updateToc_step s n es note hn hes1 hes2 (hlinks note (List.mem_cons_self _ _)) ?hded]
    case hded =>
      intro l hl
      rcases List.mem_append.mp hl with h | h
      · exact hhdr note (List.mem_cons_self _ _) l h
      · exact hese note (List.mem_cons_self _ _) l h
    rw [ih (('-' :: ' ' :: formatNoteLink note s.embeddingFormat s.tocContentType) :: es)
      ?hes1' ?hes2' ?hlinks' ?hhdr' ?hese' hpw2]
    case hes1' =>
      intro e he
      rcases List.mem_cons.mp he with h | h
      · exact ⟨formatNoteLink note s.embeddingFormat s.tocContentType, h⟩
      · exact hes1 e h
    case hes2' =>
      intro e he
      rcases List.mem_cons.mp he with h | h
      · subst h
        intro hmem
        rcases List.mem_cons.mp hmem with h' | h'
        · exact absurd h' (by decide)
        · rcases List.mem_cons.mp h' with h'' | h''
          · exact absurd h'' (by decide)
          · exact hlinks note (List.mem_cons_self _ _) h''
      · exact hes2 e h
    case hlinks' =>
      intro note' h
      exact hlinks note' (List.mem_cons_of_mem _ h)
    case hhdr' =>
      intro note' h
      exact hhdr note' (List.mem_cons_of_mem _ h)
    case hese' =>
      intro note' h e he
      rcases List.mem_cons.mp he with h' | h'
      · subst h'
        exact hpw1 note' h
      · exact hese note' (List.mem_cons_of_mem _ h) e h'
    congr 1
    rw [List.map_cons, List.reverse_cons]
    simp [List.append_assoc]

/-- C2: regenerating the index from a note list produces the header lines
followed by one entry line per note in reverse input order; when the input
list is sorted oldest-first (ascending timestamps), the listed order is
therefore newest-first (descending timestamps). The containment hypotheses
say that no note's reference occurs in the header or in another note's
entry line, which holds for the generated timestamped wikilinks. -/
theorem regenerateTocContent_newest_first (s : PeopleNotesSettings) (n : List Char)
    (notes : List NoteInfo)
    (hn : ('\n' : Char) ∉ n)
    (hlinks : ∀ note ∈ notes,
      ('\n' : Char) ∉ formatNoteLink note s.embeddingFormat s.tocContentType)
    (hhdr : ∀ note ∈ notes, ∀ l ∈ tocHeaderLines n,
      ¬ formatNoteLink note s.embeddingFormat s.tocContentType <:+: l)
    (hpw : List.Pairwise (fun a b => ¬ formatNoteLink b s.embeddingFormat s.tocContentType <:+:
      ('-' :: ' ' :: formatNoteLink a s.embeddingFormat s.tocContentType)) notes)
    (hsorted : List.Pairwise (fun a b => dateKey a.timestamp ≤ dateKey b.timestamp) notes) :
    (regenerateTocContent s n notes).splitOn '\n' =
      tocHeaderLines n ++ (notes.reverse.map (fun note =>
        '-' :: ' ' :: formatNoteLink note s.embeddingFormat s.tocContentType)) ∧
    List.Pairwise (fun a b => dateKey b.timestamp ≤ dateKey a.timestamp) notes.reverse := by
  constructor
  · rw [regenerateTocContent, createInitialTocContent_eq]
    have h0 : ['\n'].intercalate (tocHeaderLines n) =
        ['\n'].intercalate (tocHeaderLines n ++ []) := by simp
    rw [h0, regen_fold s n hn notes [] (by simp) (by simp) hlinks hhdr (by simp) hpw]
    rw [List.append_nil]
    rw [← List.map_reverse]
    apply List.splitOn_intercalate
    · intro l hl
      rcases List.mem_append.mp hl with h | h
      · exact tocHeaderLines_no_newline hn l h
      · rw [List.mem_map] at h
        obtain ⟨note, hnote, rfl⟩ := h
        intro hmem
        rcases List.mem_cons.mp hmem with h' | h'
        · exact absurd h' (by decide)
        · rcases List.mem_cons.mp h' with h'' | h''
          · exact absurd h'' (by decide)
          · exact hlinks note (List.mem_reverse.mp hnote) h''
    · simp [tocHeaderLines]
  · rw [List.pairwise_reverse]
    exact hsorted

set_option maxRecDepth 40000 in
/-- C2 witness: the spec's concrete scenario — an oldest-first list of the
09-11 and 09-12 notes regenerates to an index listing the 09-12 entry before
the 09-11 entry. -/
theorem regenerateTocContent_newest_first_witness :
    (regenerateTocContent wikilinkSettings "John Doe".toList [noteJohn1, noteJohn2]).splitOn '\n' =
      tocHeaderLines "John Doe".toList ++ ([noteJohn1, noteJohn2].reverse.map (fun note =>
        '-' :: ' ' :: formatNoteLink note wikilinkSettings.embeddingFormat
          wikilinkSettings.tocContentType)) ∧
    List.Pairwise (fun a b => dateKey b.timestamp ≤ dateKey a.timestamp)
      [noteJohn1, noteJohn2].reverse :=
  regenerateTocContent_newest_first wikilinkSettings "John Doe".toList [noteJohn1, noteJohn2]
    (by decide) (by decide) (by decide) (by decide) (by decide)

/-- C6 counterexample: with a configured people root other than People
(here Folk), the synthetic new-person candidate's directory path is not
the configured root joined with its normalized name. -/
theorem syntheticNewPerson_root_counterexample :
    (syntheticNewPerson "John".toList).directoryPath ≠
      "Folk".toList ++ '/' :: (syntheticNewPerson "John".toList).normalizedName := by
  decide

/-- C6 amended: records built by the directory manager satisfy the
directory-path invariant for the configured root, but the synthetic
new-person candidate always uses the literal People root, so it satisfies
the invariant exactly when the configured root is People. -/
theorem personRecord_directoryPath (query root personName : List Char)
    (notes : List NoteInfo) :
    (syntheticNewPerson query).directoryPath =
      "People/".toList ++ (syntheticNewPerson query).normalizedName ∧
    ((syntheticNewPerson query).directoryPath =
      root ++ '/' :: (syntheticNewPerson query).normalizedName ↔ root = "People".toList) ∧
    (getPersonInfoRecord root personName notes).directoryPath =
      root ++ '/' :: (getPersonInfoRecord root personName notes).normalizedName := by
  refine ⟨rfl, ⟨?_, ?_⟩, rfl⟩
  · intro h
    have h' : "People".toList ++ '/' :: normalizePersonName (jsTrim query) =
        root ++ '/' :: normalizePersonName (jsTrim query) := h
    exact (List.append_cancel_right h').symm
  · intro h
    subst h
    rfl

/-- C5: a whitespace-only name fails validation with the validation error
and zero storage effects; when the name is non-empty and the directory
ensure and file write succeed, the result is a success regardless of the
embed and TOC outcomes, which are reported independently in the embedded
and tocUpdated booleans. -/
theorem createNote_contract (s : PeopleNotesSettings) (now : DateRec)
    (orc : CreateOracles) (o : CreateNoteOptions) :
    (jsTrim o.personName = [] →
      (createNote s now orc o).1.success = false ∧
      (createNote s now orc o).1.error = some "Person name cannot be empty".toList ∧
      (createNote s now orc o).1.embedded = false ∧
      (createNote s now orc o).1.tocUpdated = false ∧
      (createNote s now orc o).2 = []) ∧
    (jsTrim o.personName ≠ [] → orc.ensureDirOk = true → orc.createOk = true →
      (createNote s now orc o).1.success = true ∧
      (createNote s now orc o).1.embedded =
        (if o.embedInCurrentNote ≠ some false then orc.embedResult else false) ∧
      (createNote s now orc o).1.tocUpdated =
        (if o.updateTableOfContents ≠ some false then orc.tocResult else false)) := by
  constructor
  · intro h
    simp only [createNote, if_pos h]
    refine ⟨by trivial, by trivial, by trivial, by trivial, by trivial⟩
  · intro h h1 h2
    simp only [createNote, if_neg h]
    rw [if_neg (by simp [h1]), if_neg (by simp [h2])]
    refine ⟨by trivial, by trivial, by trivial⟩

/-- C5 witness: with a whitespace-only name the result is a no-effect
validation failure; with John Doe and mixed collaborator outcomes the
creation succeeds while reporting embedded = false and tocUpdated = true. -/
theorem createNote_contract_witness :
    ((createNote wikilinkSettings ⟨2025, 9, 11, 10, 18, 48⟩ mixedOracles
        ⟨"  ".toList, none, none, none⟩).1.success = false ∧
     (createNote wikilinkSettings ⟨2025, 9, 11, 10, 18, 48⟩ mixedOracles
        ⟨"  ".toList, none, none, none⟩).2 = []) ∧
    ((createNote wikilinkSettings ⟨2025, 9, 11, 10, 18, 48⟩ mixedOracles
        ⟨"John Doe".toList, none, none, none⟩).1.success = true ∧
     (createNote wikilinkSettings ⟨2025, 9, 11, 10, 18, 48⟩ mixedOracles
        ⟨"John Doe".toList, none, none, none⟩).1.embedded = false ∧
     (createNote wikilinkSettings ⟨2025, 9, 11, 10, 18, 48⟩ mixedOracles
        ⟨"John Doe".toList, none, none, none⟩).1.tocUpdated = true) := by
  have hv := (createNote_contract wikilinkSettings ⟨2025, 9, 11, 10, 18, 48⟩ mixedOracles
    ⟨"  ".toList, none, none, none⟩).1 (by decide)
  have hs := (createNote_contract wikilinkSettings ⟨2025, 9, 11, 10, 18, 48⟩ mixedOracles
    ⟨"John Doe".toList, none, none, none⟩).2 (by decide) rfl rfl
  refine ⟨⟨hv.1, hv.2.2.2.2⟩, hs.1, ?_, ?_⟩
  · rw [hs.2.1]; decide
  · rw [hs.2.2]; decide

end PeopleNotes
